import Mathlib

/-!
# Verification of the 1D cellular automaton rule engine (`src/ca/ca.py`)

Shallow embedding of the `CA` class.  Python states are unbounded integers,
so state values and rule-table entries are modelled as `Int`; the (validated,
nonnegative) configuration parameters are stored as `Nat`.  Methods that can
raise `ValueError` are modelled as `Except Err`.
-/

namespace CAModel

/-- Error taxonomy of the engine (each `ValueError` site in `ca.py`,
named as in the spec's §7 taxonomy). -/
inductive Err where
  | invalidConfiguration
  | ruleNumberOutOfRange
  | ruleTableLengthMismatch
  | stateOutOfRange
  | sequenceTooShort
  | invalidStepCount
deriving DecidableEq, Repr

/-- The configuration stored by `CA.__init__`: `self.nhd`, `self.n_states`,
`self.rule`.  (`self.in_size` is derived; see `CAConfig.in_size`.) -/
structure CAConfig where
  nhd0 : Nat
  nhd1 : Nat
  n_states : Nat
  rule : List Int
deriving DecidableEq, Repr

/-- `self.in_size = sum(nhd) + 1`: neighborhood size is
`<size left> + 1 + <size right>`. -/
def CAConfig.in_size (cfg : CAConfig) : Nat :=
  cfg.nhd0 + cfg.nhd1 + 1

/-- `CA._states_in_bounds`: every state lies between `0` and `n_states - 1`.
The Python method raises `ValueError`; callers here test the `Bool` and
produce `Err.stateOutOfRange`. -/
def states_in_bounds (n_states : Nat) (states : List Int) : Bool :=
  states.all fun x => decide (0 ≤ x ∧ x < (n_states : Int))

/-- The inner recursion `int_to_states_rcrs` of `CA._int_to_states`:
successively take `divmod(k, n_states)`, appending each digit
(little-endian) to the accumulator.

The `n_states < 2` branch is a totality guard only: `CA.__init__` rejects
`n_states < 2` before this is ever called (in Python, `n_states == 1` would
loop forever and `n_states == 0` would raise `ZeroDivisionError`). -/
def int_to_states_rcrs (n_states : Nat) (k : Nat) (acc : List Int) : List Int :=
  if h : k = 0 then acc
  else if n_states < 2 then acc
  else int_to_states_rcrs n_states (k / n_states) (acc ++ [((k % n_states : Nat) : Int)])
termination_by k
decreasing_by
  exact Nat.div_lt_self (Nat.pos_of_ne_zero h) (by omega)

/-- `CA._int_to_states`: decode a rule number into a rule table,
little-endian digits, zero-filled up to `n_states ** in_size`.
`rem` is an `Int` because the Python subtraction may be negative. -/
def _int_to_states (n_states in_size : Nat) (k : Nat) : List Int :=
  let out := int_to_states_rcrs n_states k []
  let rem : Int := ((n_states ^ in_size : Nat) : Int) - out.length
  if 0 < rem then out ++ List.replicate rem.toNat (0 : Int) else out

/-- `CA._neighborhood_to_index`: big-endian positional encoding
`sum(state * n_states ** (len(states) - p - 1) for (p, state) in enumerate(states))`.
The `_states_in_bounds` check the source performs first cannot fire at its
call site (`_apply_rule` has already validated the whole sequence, and the
padding zeros are in bounds), so the embedding is the pure sum. -/
def _neighborhood_to_index (n_states : Nat) (states : List Int) : Int :=
  (states.enum.map fun ps => ps.2 * ((n_states : Int) ^ (states.length - ps.1 - 1))).sum

/-- `CA.__init__`.  `rule` is either a Wolfram number (`Sum.inl`) or an
explicit transition table (`Sum.inr`); checks are performed in source
order. -/
def CA.init (rule : Sum Int (List Int)) (nhd0 nhd1 n_states : Int) :
    Except Err CAConfig :=
  if nhd0 < 0 ∨ nhd1 < 0 then .error .invalidConfiguration
  else if n_states < 2 then .error .invalidConfiguration
  else
    let l := nhd0.toNat
    let r := nhd1.toNat
    let n := n_states.toNat
    let in_size := l + r + 1
    let max_rule_num : Int := ((n : Int)) ^ (n ^ in_size) - 1
    let rule_len := n ^ in_size
    match rule with
    | .inl k =>
      if k < 0 ∨ max_rule_num < k then .error .ruleNumberOutOfRange
      else .ok ⟨l, r, n, _int_to_states n in_size k.toNat⟩
    | .inr tbl =>
      if tbl.length ≠ rule_len then .error .ruleTableLengthMismatch
      else if ¬ states_in_bounds n tbl then .error .stateOutOfRange
      else .ok ⟨l, r, n, tbl⟩

/-- `CA._apply_rule`: one step of the automaton.  Python's
`range(len(seq_) - self.in_size + 1)` is empty when the bound is
nonpositive; in `Nat`, `seq_.length + 1 - cfg.in_size` is that same count.
A negative lookup index is impossible (all window states are validated
nonnegative), so `Int.toNat` on the index is exact; `List.getD _ _ 0`
models Python list indexing, whose index here is always in range for
constructor-built tables. -/
def _apply_rule (cfg : CAConfig) (seq : List Int) (pre_pad : Bool) :
    Except Err (List Int) :=
  -- check input length
  if pre_pad = false ∧ seq.length < cfg.in_size then .error .sequenceTooShort
  -- check for out of bounds states
  else if ¬ states_in_bounds cfg.n_states seq then .error .stateOutOfRange
  else
    let seq_ :=
      if pre_pad then
        List.replicate cfg.nhd0 (0 : Int) ++ seq ++ List.replicate cfg.nhd1 (0 : Int)
      else seq
    .ok ((List.range (seq_.length + 1 - cfg.in_size)).map fun start_ix =>
      cfg.rule.getD
        (_neighborhood_to_index cfg.n_states ((seq_.drop start_ix).take cfg.in_size)).toNat
        0)

/-- Python's `max` over a nonempty list of lengths (`max(seq_lens)`);
`0` is the identity for `max` on `Nat`, so the fold agrees with Python on
every nonempty list (Python raises on `[]`, which call sites never pass). -/
def seq_max (lens : List Nat) : Nat :=
  lens.foldl max 0

/-- Python's `min` over a nonempty list of lengths (`min(seq_lens)`).
The `[]` case is arbitrary: call sites always pass a nonempty history. -/
def seq_min (lens : List Nat) : Nat :=
  match lens with
  | [] => 0
  | x :: xs => xs.foldl min x

/-- `CA._pad_output`: zero-pad every sequence of a history to the length of
the longest one, distributing the fill in proportion to the two
neighborhood radii, remainder biased left. -/
def _pad_output (cfg : CAConfig) (seqs : List (List Int)) :
    Except Err (List (List Int)) :=
  -- run checks on input sequences
  if ¬ (seqs.all fun s => states_in_bounds cfg.n_states s) then .error .stateOutOfRange
  -- if in_size is 1, then applying the cellular automaton preserves input length
  else if 1 < cfg.in_size then
    let seq_lens := seqs.map List.length
    let max_len := seq_max seq_lens
    let min_len := seq_min seq_lens
    -- if max_len is equal to min_len there is nothing to do
    if min_len < max_len then
      .ok (seqs.map fun s =>
        let fill := max_len - s.length
        if 0 < fill then
          let nhd_reps := fill / (cfg.in_size - 1)
          let extra := fill % (cfg.in_size - 1)
          let extra_both := extra / 2
          let extra_l := extra % 2
          List.replicate (nhd_reps * cfg.nhd0 + extra_both + extra_l) (0 : Int)
            ++ s ++ List.replicate (nhd_reps * cfg.nhd1 + extra_both) (0 : Int)
        else s)
    else .ok seqs
  else .ok seqs

/-- The loop body of `CA.__call__`: apply the rule to `out[-1]` up to
`fuel` times, appending each nonempty result, breaking on an empty one. -/
def call_loop (cfg : CAConfig) (pre_pad : Bool) :
    Nat → List (List Int) → Except Err (List (List Int))
  | 0, out => .ok out
  | fuel + 1, out =>
    match _apply_rule cfg (out.getLastD []) pre_pad with
    | .error e => .error e
    | .ok states_next =>
      if 0 < states_next.length then call_loop cfg pre_pad fuel (out ++ [states_next])
      else .ok out

/-- `CA.__call__`: evolve for `steps` steps from `seq` (history starts with
a copy of `seq`; Lean lists are immutable values, so the copy is the value
itself), post-padding the history if requested. -/
def CA.call (cfg : CAConfig) (seq : List Int) (steps : Int)
    (pre_pad post_pad : Bool) : Except Err (List (List Int)) :=
  if steps < 1 then .error .invalidStepCount
  else
    match call_loop cfg pre_pad steps.toNat [seq] with
    | .error e => .error e
    | .ok out => if post_pad then _pad_output cfg out else .ok out

/-! ## Helper lemmas -/

theorem states_in_bounds_iff (n : Nat) (s : List Int) :
    states_in_bounds n s = true ↔ ∀ x ∈ s, 0 ≤ x ∧ x < (n : Int) := by
  simp [states_in_bounds, List.all_eq_true]

theorem getD_replicate_zero (m j : Nat) :
    (List.replicate m (0 : Int)).getD j 0 = 0 := by
  rcases Nat.lt_or_ge j m with h | h
  · rw [List.getD_eq_getElem _ _ (by simpa using h)]
    simp
  · rw [List.getD_eq_default _ _ (by simpa using h)]

theorem getD_map_cast (l : List Nat) (i : Nat) :
    (l.map (fun d : Nat => (d : Int))).getD i 0 = ((l.getD i 0 : Nat) : Int) := by
  rcases Nat.lt_or_ge i l.length with h | h
  · rw [List.getD_eq_getElem _ _ (by simpa using h), List.getD_eq_getElem _ _ h]
    simp
  · rw [List.getD_eq_default _ _ (by simpa using h), List.getD_eq_default _ _ h]
    simp

theorem digits_length_le_of_lt_pow {b : Nat} (hb : 1 < b) :
    ∀ (s k : Nat), k < b ^ s → (Nat.digits b k).length ≤ s := by
  intro s
  induction s with
  | zero =>
    intro k hk
    rw [pow_zero] at hk
    have : k = 0 := by omega
    simp [this]
  | succ s ih =>
    intro k hk
    rcases Nat.eq_zero_or_pos k with hk0 | hk0
    · subst hk0; simp
    · rw [Nat.digits_def' hb hk0]
      have hdiv : k / b < b ^ s := by
        rw [Nat.div_lt_iff_lt_mul (by omega)]
        calc k < b ^ (s + 1) := hk
        _ = b ^ s * b := by rw [pow_succ]
      simpa using ih (k / b) hdiv

theorem digits_getD {b : Nat} (hb : 1 < b) :
    ∀ (i k : Nat), (Nat.digits b k).getD i 0 = k / b ^ i % b := by
  intro i
  induction i with
  | zero =>
    intro k
    rcases Nat.eq_zero_or_pos k with hk0 | hk0
    · subst hk0; simp
    · rw [Nat.digits_def' hb hk0]
      simp
  | succ i ih =>
    intro k
    rcases Nat.eq_zero_or_pos k with hk0 | hk0
    · subst hk0; simp
    · rw [Nat.digits_def' hb hk0]
      show (Nat.digits b (k / b)).getD i 0 = _
      rw [ih (k / b), Nat.div_div_eq_div_mul, ← pow_succ']

theorem int_to_states_rcrs_eq {n : Nat} (hn : 2 ≤ n) (k : Nat) :
    ∀ acc, int_to_states_rcrs n k acc
      = acc ++ (Nat.digits n k).map (fun d : Nat => (d : Int)) := by
  induction k using Nat.strong_induction_on with
  | _ k ih =>
    intro acc
    rw [int_to_states_rcrs]
    by_cases hk : k = 0
    · simp [hk]
    · have hn2 : ¬ n < 2 := by omega
      simp only [hk, dite_false, hn2, if_false]
      rw [ih (k / n) (Nat.div_lt_self (Nat.pos_of_ne_zero hk) (by omega))]
      rw [Nat.digits_def' (by omega : 1 < n) (Nat.pos_of_ne_zero hk)]
      simp

/-- Normal form of `_int_to_states`: the digit list followed by the
zero fill, whenever the rule number is within range. -/
theorem _int_to_states_eq {n s : Nat} (hn : 2 ≤ n) {k : Nat}
    (hk : k < n ^ (n ^ s)) :
    _int_to_states n s k
      = (Nat.digits n k).map (fun d : Nat => (d : Int))
        ++ List.replicate (n ^ s - (Nat.digits n k).length) 0 := by
  have hb : 1 < n := by omega
  have hdl : (Nat.digits n k).length ≤ n ^ s :=
    digits_length_le_of_lt_pow hb (n ^ s) k hk
  unfold _int_to_states
  rw [int_to_states_rcrs_eq hn k [], List.nil_append]
  set D := (Nat.digits n k).map (fun d : Nat => (d : Int)) with hD
  have hDlen : D.length = (Nat.digits n k).length := by
    rw [hD, List.length_map]
  by_cases hrem : (0 : Int) < ((n ^ s : Nat) : Int) - (D.length : Int)
  · rw [if_pos hrem]
    congr 1
    congr 1
    rw [hDlen, Int.toNat_sub]
  · rw [if_neg hrem]
    have : (Nat.digits n k).length = n ^ s := by omega
    rw [this]
    simp

/-- Master lemma about `_int_to_states`: for in-range rule numbers it
produces the full little-endian digit table of length `n ^ s`, whose
`i`-th entry is the base-`n` digit of `k` of weight `n ^ i`. -/
theorem _int_to_states_spec {n s : Nat} (hn : 2 ≤ n) {k : Nat}
    (hk : k < n ^ (n ^ s)) :
    (_int_to_states n s k).length = n ^ s ∧
    (∀ i, (_int_to_states n s k).getD i 0 = ((k / n ^ i % n : Nat) : Int)) ∧
    (∀ x ∈ _int_to_states n s k, 0 ≤ x ∧ x < (n : Int)) ∧
    (k = 0 → _int_to_states n s k = List.replicate (n ^ s) 0) := by
  have hb : 1 < n := by omega
  have hdl : (Nat.digits n k).length ≤ n ^ s :=
    digits_length_le_of_lt_pow hb (n ^ s) k hk
  rw [_int_to_states_eq hn hk]
  set D := (Nat.digits n k).map (fun d : Nat => (d : Int)) with hD
  have hDlen : D.length = (Nat.digits n k).length := by
    rw [hD, List.length_map]
  have hhigh : ∀ j, (Nat.digits n k).length ≤ j → k / n ^ j % n = 0 := by
    intro j hj
    have hklt : k < n ^ j :=
      lt_of_lt_of_le (Nat.lt_base_pow_length_digits hb)
        (Nat.pow_le_pow_right (by omega) hj)
    rw [Nat.div_eq_of_lt hklt]
    simp
  refine ⟨?_, ?_, ?_, ?_⟩
  · rw [List.length_append, List.length_replicate, hDlen]
    omega
  · intro i
    by_cases hi : i < D.length
    · rw [List.getD_append _ _ _ _ hi]
      rw [hD, getD_map_cast, digits_getD hb i k]
    · push_neg at hi
      rw [List.getD_append_right _ _ _ _ hi, getD_replicate_zero]
      rw [hDlen] at hi
      rw [hhigh i hi]
      simp
  · intro x hx
    rcases List.mem_append.mp hx with h | h
    · rcases List.mem_map.mp h with ⟨d, hd, rfl⟩
      have hlt := Nat.digits_lt_base hb hd
      exact ⟨Int.natCast_nonneg d, by exact_mod_cast hlt⟩
    · have := List.eq_of_mem_replicate h
      subst this
      exact ⟨le_refl 0, by exact_mod_cast (by omega : (0 : Nat) < n)⟩
  · intro hk0
    subst hk0
    simp [hD]

/-- Constructor normal form, integer-rule branch: in-range rule numbers
are decoded through `_int_to_states`. -/
theorem CA_init_inl_eq {l r n : Nat} (hn : 2 ≤ n) {k : Int} (hk0 : 0 ≤ k)
    (hkmax : k ≤ ((n : Int)) ^ (n ^ (l + r + 1)) - 1) :
    CA.init (.inl k) (l : Int) (r : Int) (n : Int)
      = .ok ⟨l, r, n, _int_to_states n (l + r + 1) k.toNat⟩ := by
  unfold CA.init
  have h1 : ¬ ((l : Int) < 0 ∨ (r : Int) < 0) := by omega
  have h2 : ¬ ((n : Int) < 2) := by omega
  rw [if_neg h1, if_neg h2]
  simp only [Int.toNat_natCast]
  rw [if_neg (not_or.mpr ⟨not_lt.mpr hk0, not_lt.mpr hkmax⟩)]

/-- Constructor normal form, explicit-table branch: a table of the right
length with in-range entries is stored as given. -/
theorem CA_init_inr_eq {l r n : Nat} (hn : 2 ≤ n) {tbl : List Int}
    (hlen : tbl.length = n ^ (l + r + 1))
    (hv : ∀ x ∈ tbl, 0 ≤ x ∧ x < (n : Int)) :
    CA.init (.inr tbl) (l : Int) (r : Int) (n : Int) = .ok ⟨l, r, n, tbl⟩ := by
  unfold CA.init
  have h1 : ¬ ((l : Int) < 0 ∨ (r : Int) < 0) := by omega
  have h2 : ¬ ((n : Int) < 2) := by omega
  rw [if_neg h1, if_neg h2]
  simp only [Int.toNat_natCast]
  rw [if_neg (by simpa using hlen)]
  rw [if_neg (by simp [states_in_bounds_iff]; exact fun x hx => hv x hx)]

/-- Inversion of a successful construction: the stored configuration's
shape and rule-table invariants. -/
theorem CA_init_ok_inv {rule : Sum Int (List Int)} {l r n : Int} {cfg : CAConfig}
    (h : CA.init rule l r n = .ok cfg) :
    2 ≤ cfg.n_states ∧ cfg.nhd0 = l.toNat ∧ cfg.nhd1 = r.toNat ∧
    cfg.n_states = n.toNat ∧
    cfg.rule.length = cfg.n_states ^ cfg.in_size ∧
    (∀ x ∈ cfg.rule, 0 ≤ x ∧ x < (cfg.n_states : Int)) := by
  unfold CA.init at h
  by_cases h1 : l < 0 ∨ r < 0
  · rw [if_pos h1] at h
    exact absurd h (by simp)
  rw [if_neg h1] at h
  by_cases h2 : n < 2
  · rw [if_pos h2] at h
    exact absurd h (by simp)
  rw [if_neg h2] at h
  have hn2 : 2 ≤ n.toNat := by omega
  match rule with
  | .inl k =>
    simp only at h
    by_cases h3 : k < 0 ∨ ((n.toNat : Int)) ^ (n.toNat ^ (l.toNat + r.toNat + 1)) - 1 < k
    · rw [if_pos h3] at h
      exact absurd h (by simp)
    rw [if_neg h3] at h
    have hcfg : cfg = ⟨l.toNat, r.toNat, n.toNat,
        _int_to_states n.toNat (l.toNat + r.toNat + 1) k.toNat⟩ := by
      cases h
      rfl
    push_neg at h3
    have hklt : k.toNat < n.toNat ^ (n.toNat ^ (l.toNat + r.toNat + 1)) := by
      have := h3.2
      have hcast : ((n.toNat ^ (n.toNat ^ (l.toNat + r.toNat + 1)) : Nat) : Int)
          = ((n.toNat : Int)) ^ (n.toNat ^ (l.toNat + r.toNat + 1)) := by
        push_cast
        rfl
      omega
    obtain ⟨hL, _, hB, _⟩ := _int_to_states_spec hn2 hklt
    subst hcfg
    exact ⟨hn2, rfl, rfl, rfl, hL, hB⟩
  | .inr tbl =>
    simp only at h
    by_cases h3 : tbl.length ≠ n.toNat ^ (l.toNat + r.toNat + 1)
    · rw [if_pos h3] at h
      exact absurd h (by simp)
    rw [if_neg h3] at h
    by_cases h4 : ¬ states_in_bounds n.toNat tbl
    · rw [if_pos h4] at h
      exact absurd h (by simp)
    rw [if_neg h4] at h
    have hcfg : cfg = ⟨l.toNat, r.toNat, n.toNat, tbl⟩ := by
      cases h
      rfl
    push_neg at h3 h4
    subst hcfg
    exact ⟨hn2, rfl, rfl, rfl, h3, (states_in_bounds_iff _ _).mp h4⟩

/-! ## Claim theorems -/

/-- C1 (Wolfram decoding): for every configuration shape with
`state_count ≥ 2`, `left_radius ≥ 0`, `right_radius ≥ 0` and every rule
number `k` with `0 ≤ k ≤ state_count ^ (state_count ^ window_size) - 1`,
construction produces a rule table whose entry at index `i` is the
base-`state_count` digit of `k` of weight `state_count ^ i`
(least-significant first), zero-filled up to
`table_length = state_count ^ window_size`; in particular rule number `0`
decodes to the all-zero table of that length. -/
theorem C1_wolfram_decoding (l r n : Nat) (hn : 2 ≤ n) (k : Int) (hk0 : 0 ≤ k)
    (hkmax : k ≤ ((n : Int)) ^ (n ^ (l + r + 1)) - 1) :
    CA.init (.inl k) (l : Int) (r : Int) (n : Int)
      = .ok ⟨l, r, n, _int_to_states n (l + r + 1) k.toNat⟩ ∧
    (_int_to_states n (l + r + 1) k.toNat).length = n ^ (l + r + 1) ∧
    (∀ i < n ^ (l + r + 1),
      (_int_to_states n (l + r + 1) k.toNat).getD i 0
        = ((k.toNat / n ^ i % n : Nat) : Int)) ∧
    (k = 0 → _int_to_states n (l + r + 1) k.toNat
        = List.replicate (n ^ (l + r + 1)) 0) := by
  have hklt : k.toNat < n ^ (n ^ (l + r + 1)) := by
    have hcast : ((n ^ (n ^ (l + r + 1)) : Nat) : Int)
        = ((n : Int)) ^ (n ^ (l + r + 1)) := by
      push_cast
      rfl
    omega
  obtain ⟨hL, hdig, _, hz⟩ := _int_to_states_spec hn hklt
  refine ⟨CA_init_inl_eq hn hk0 hkmax, hL, fun i _ => hdig i, fun hk => ?_⟩
  subst hk
  exact hz rfl

/-- Witness for C1 at `state_count = 2`, radii `(1, 1)`, rule number 90. -/
theorem C1_wolfram_decoding_witness :
    (2 ≤ 2 ∧ (0 : Int) ≤ 90 ∧ (90 : Int) ≤ ((2 : Nat) : Int) ^ ((2 : Nat) ^ (1 + 1 + 1)) - 1) ∧
    (CA.init (.inl 90) ((1 : Nat) : Int) ((1 : Nat) : Int) ((2 : Nat) : Int)
      = .ok ⟨1, 1, 2, _int_to_states 2 (1 + 1 + 1) (90 : Int).toNat⟩ ∧
    (_int_to_states 2 (1 + 1 + 1) (90 : Int).toNat).length = 2 ^ (1 + 1 + 1) ∧
    (∀ i < 2 ^ (1 + 1 + 1),
      (_int_to_states 2 (1 + 1 + 1) (90 : Int).toNat).getD i 0
        = (((90 : Int).toNat / 2 ^ i % 2 : Nat) : Int)) ∧
    ((90 : Int) = 0 → _int_to_states 2 (1 + 1 + 1) (90 : Int).toNat
        = List.replicate (2 ^ (1 + 1 + 1)) 0)) :=
  ⟨⟨by decide, by decide, by decide⟩,
    C1_wolfram_decoding 1 1 2 (by decide) 90 (by decide) (by decide)⟩

/-- C8 (rule number range check): for every valid configuration shape
(`state_count ≥ 2`, radii ≥ 0) and every integer rule number,
construction fails with `RuleNumberOutOfRange` iff the number is negative
or exceeds `state_count ^ (state_count ^ window_size) - 1`; otherwise it
succeeds by decoding the number into a rule table. -/
theorem C8_rule_number_range (k : Int) (l r n : Nat) (hn : 2 ≤ n) :
    (CA.init (.inl k) (l : Int) (r : Int) (n : Int) = .error .ruleNumberOutOfRange
      ↔ k < 0 ∨ ((n : Int)) ^ (n ^ (l + r + 1)) - 1 < k) ∧
    (¬ (k < 0 ∨ ((n : Int)) ^ (n ^ (l + r + 1)) - 1 < k) →
      CA.init (.inl k) (l : Int) (r : Int) (n : Int)
        = .ok ⟨l, r, n, _int_to_states n (l + r + 1) k.toNat⟩) := by
  constructor
  · unfold CA.init
    have h1 : ¬ ((l : Int) < 0 ∨ (r : Int) < 0) := by omega
    have h2 : ¬ ((n : Int) < 2) := by omega
    rw [if_neg h1, if_neg h2]
    simp only [Int.toNat_natCast]
    by_cases h3 : k < 0 ∨ ((n : Int)) ^ (n ^ (l + r + 1)) - 1 < k
    · rw [if_pos h3]
      simp [h3]
    · rw [if_neg h3]
      simp [h3]
  · intro h3
    push_neg at h3
    exact CA_init_inl_eq hn h3.1 h3.2

/-- Witness for C8 at `state_count = 2`, radii `(1, 1)`, rule number 300
(out of range, as the maximum is 255). -/
theorem C8_rule_number_range_witness :
    2 ≤ 2 ∧
    ((CA.init (.inl 300) ((1 : Nat) : Int) ((1 : Nat) : Int) ((2 : Nat) : Int)
        = .error .ruleNumberOutOfRange
      ↔ (300 : Int) < 0 ∨ (((2 : Nat) : Int)) ^ ((2 : Nat) ^ (1 + 1 + 1)) - 1 < 300) ∧
    (¬ ((300 : Int) < 0 ∨ (((2 : Nat) : Int)) ^ ((2 : Nat) ^ (1 + 1 + 1)) - 1 < 300) →
      CA.init (.inl 300) ((1 : Nat) : Int) ((1 : Nat) : Int) ((2 : Nat) : Int)
        = .ok ⟨1, 1, 2, _int_to_states 2 (1 + 1 + 1) (300 : Int).toNat⟩)) :=
  ⟨by decide, C8_rule_number_range 300 1 1 2 (by decide)⟩

/-- C9 (configuration invariants): every successful construction — from a
rule number or an explicit table — stores a rule table of length exactly
`state_count ^ (left_radius + right_radius + 1)` whose entries all lie in
`[0, state_count)`; for the integer form this holds by the decoding
arithmetic alone. -/
theorem C9_construction_invariants (rule : Sum Int (List Int)) (l r n : Int)
    (cfg : CAConfig) (h : CA.init rule l r n = .ok cfg) :
    cfg.rule.length = cfg.n_states ^ (cfg.nhd0 + cfg.nhd1 + 1) ∧
    ∀ x ∈ cfg.rule, 0 ≤ x ∧ x < (cfg.n_states : Int) := by
  obtain ⟨_, _, _, _, hL, hB⟩ := CA_init_ok_inv h
  exact ⟨hL, hB⟩

/-- Witness for C9: construction from an explicit 4-entry table with
`state_count = 2`, radii `(1, 0)`. -/
theorem C9_construction_invariants_witness :
    CA.init (.inr [0, 1, 0, 1]) 1 0 2 = .ok ⟨1, 0, 2, [0, 1, 0, 1]⟩ ∧
    (([0, 1, 0, 1] : List Int).length = 2 ^ (1 + 0 + 1) ∧
      ∀ x ∈ ([0, 1, 0, 1] : List Int), 0 ≤ x ∧ x < ((2 : Nat) : Int)) :=
  ⟨by rfl,
    C9_construction_invariants (.inr [0, 1, 0, 1]) 1 0 2 ⟨1, 0, 2, [0, 1, 0, 1]⟩
      (by rfl)⟩

/-- C7 (single-step failure conditions): a step with `pad_input = false`
fails with `SequenceTooShort` iff the sequence is shorter than the window;
a step fails with `StateOutOfRange` iff the length check did not already
fire and some value of the sequence lies outside `[0, state_count)` — the
length check runs first, so a too-short sequence with an out-of-range
value fails with `SequenceTooShort`. -/
theorem C7_single_step_failures (cfg : CAConfig) (seq : List Int) (pre_pad : Bool) :
    (_apply_rule cfg seq pre_pad = .error .sequenceTooShort
      ↔ pre_pad = false ∧ seq.length < cfg.in_size) ∧
    (_apply_rule cfg seq pre_pad = .error .stateOutOfRange
      ↔ ¬ (pre_pad = false ∧ seq.length < cfg.in_size) ∧
        ∃ x ∈ seq, ¬ (0 ≤ x ∧ x < (cfg.n_states : Int))) := by
  unfold _apply_rule
  by_cases h1 : pre_pad = false ∧ seq.length < cfg.in_size
  · rw [if_pos h1]
    simp [h1]
  · rw [if_neg h1]
    by_cases h2 : ¬ states_in_bounds cfg.n_states seq
    · rw [if_pos h2]
      have hex : ∃ x ∈ seq, ¬ (0 ≤ x ∧ x < (cfg.n_states : Int)) := by
        by_contra hc
        push_neg at hc
        exact h2 ((states_in_bounds_iff _ _).mpr fun x hx => hc x hx)
      exact ⟨by simp [h1], iff_of_true rfl ⟨h1, hex⟩⟩
    · rw [if_neg h2]
      push_neg at h2
      have hall := (states_in_bounds_iff _ _).mp h2
      have hnex : ¬ (¬ (pre_pad = false ∧ seq.length < cfg.in_size) ∧
          ∃ x ∈ seq, ¬ (0 ≤ x ∧ x < (cfg.n_states : Int))) := by
        rintro ⟨-, x, hx, hnx⟩
        exact hnx (hall x hx)
      exact ⟨by simp [h1], iff_of_false (by simp) hnex⟩

/-- Generic evaluation of a sum over `List.enumFrom` as a sum over
positions. -/
theorem sum_enumFrom_eq (f : Nat → Int → Int) :
    ∀ (c : Nat) (xs : List Int),
      ((List.enumFrom c xs).map fun ps => f ps.1 ps.2).sum
        = ((List.range xs.length).map fun p => f (c + p) (xs.getD p 0)).sum := by
  intro c xs
  induction xs generalizing c with
  | nil => simp
  | cons x xs ih =>
    rw [List.enumFrom_cons, List.map_cons, List.sum_cons, ih (c + 1)]
    rw [List.length_cons, List.range_succ_eq_map, List.map_cons, List.sum_cons,
      List.map_map]
    simp only [List.getD_cons_zero, Nat.add_zero]
    congr 1
    refine congrArg List.sum (List.map_congr_left ?_)
    intro p _
    simp only [Function.comp_apply, List.getD_cons_succ]
    congr 1
    omega

/-- The window encoding as a positional sum: `_neighborhood_to_index` is
`Σ_p w[p] * n ^ (len - p - 1)` (big-endian). -/
theorem nti_eq_range_sum (n : Nat) (w : List Int) :
    _neighborhood_to_index n w
      = ((List.range w.length).map fun p =>
          w.getD p 0 * ((n : Int) ^ (w.length - p - 1))).sum := by
  unfold _neighborhood_to_index
  unfold List.enum
  rw [sum_enumFrom_eq (fun p s => s * ((n : Int) ^ (w.length - p - 1))) 0 w]
  simp

/-- Peeling the most significant digit off the window encoding. -/
theorem nti_cons (n : Nat) (x : Int) (xs : List Int) :
    _neighborhood_to_index n (x :: xs)
      = x * ((n : Int)) ^ xs.length + _neighborhood_to_index n xs := by
  rw [nti_eq_range_sum, nti_eq_range_sum]
  rw [List.length_cons, List.range_succ_eq_map, List.map_cons, List.sum_cons,
    List.map_map]
  simp only [List.getD_cons_zero, Nat.add_sub_cancel]
  congr 1
  refine congrArg List.sum (List.map_congr_left ?_)
  intro p _
  simp only [Function.comp_apply, List.getD_cons_succ, Nat.succ_sub_succ]

/-- The window encoding of an in-bounds window is a valid index:
nonnegative and below `n ^ window_length`. -/
theorem nti_bounds {n : Nat} (hn : 1 ≤ n) :
    ∀ (w : List Int), (∀ x ∈ w, 0 ≤ x ∧ x < (n : Int)) →
      0 ≤ _neighborhood_to_index n w ∧
      _neighborhood_to_index n w < ((n : Int)) ^ w.length := by
  intro w
  induction w with
  | nil =>
    intro _
    constructor
    · simp [_neighborhood_to_index]
    · simp [_neighborhood_to_index]
  | cons x xs ih =>
    intro hv
    obtain ⟨hx0, hxn⟩ := hv x (List.mem_cons_self x xs)
    obtain ⟨h0, hb⟩ := ih fun y hy => hv y (List.mem_cons_of_mem x hy)
    have hpow : (0 : Int) ≤ ((n : Int)) ^ xs.length := by positivity
    rw [nti_cons, List.length_cons]
    constructor
    · have : 0 ≤ x * ((n : Int)) ^ xs.length := mul_nonneg hx0 hpow
      linarith
    · have h1 : x * ((n : Int)) ^ xs.length + _neighborhood_to_index n xs
          < (x + 1) * ((n : Int)) ^ xs.length := by
        have := hb
        ring_nf
        linarith
      have h2 : (x + 1) * ((n : Int)) ^ xs.length
          ≤ (n : Int) * ((n : Int)) ^ xs.length :=
        mul_le_mul_of_nonneg_right (by omega) hpow
      calc x * ((n : Int)) ^ xs.length + _neighborhood_to_index n xs
          < (x + 1) * ((n : Int)) ^ xs.length := h1
        _ ≤ (n : Int) * ((n : Int)) ^ xs.length := h2
        _ = ((n : Int)) ^ (xs.length + 1) := by ring

/-- A step applied without padding to a sequence of exactly one window
produces the single looked-up entry. -/
theorem apply_rule_single_window (cfg : CAConfig) (w : List Int)
    (hlen : w.length = cfg.in_size)
    (hv : ∀ x ∈ w, 0 ≤ x ∧ x < (cfg.n_states : Int)) :
    _apply_rule cfg w false
      = .ok [cfg.rule.getD (_neighborhood_to_index cfg.n_states w).toNat 0] := by
  unfold _apply_rule
  rw [if_neg (by omega)]
  rw [if_neg (by simpa using (states_in_bounds_iff _ _).mpr hv)]
  simp only [Bool.false_eq_true, if_false]
  have hone : w.length + 1 - cfg.in_size = 1 := by omega
  rw [hone]
  have hrange : List.range 1 = [0] := rfl
  rw [hrange]
  simp only [List.map_cons, List.map_nil, List.drop_zero]
  rw [List.take_of_length_le (le_of_eq hlen)]

/-- Inversion for explicit-table construction: the stored table is the one
supplied. -/
theorem CA_init_inr_rule_eq {T : List Int} {l r n : Int} {cfg : CAConfig}
    (h : CA.init (.inr T) l r n = .ok cfg) : cfg.rule = T := by
  unfold CA.init at h
  by_cases h1 : l < 0 ∨ r < 0
  · rw [if_pos h1] at h
    exact absurd h (by simp)
  rw [if_neg h1] at h
  by_cases h2 : n < 2
  · rw [if_pos h2] at h
    exact absurd h (by simp)
  rw [if_neg h2] at h
  simp only at h
  by_cases h3 : T.length ≠ n.toNat ^ (l.toNat + r.toNat + 1)
  · rw [if_pos h3] at h
    exact absurd h (by simp)
  rw [if_neg h3] at h
  by_cases h4 : ¬ states_in_bounds n.toNat T
  · rw [if_pos h4] at h
    exact absurd h (by simp)
  rw [if_neg h4] at h
  cases h
  rfl

/-- C2 (window encoding round-trip): for a configuration built from an
explicit valid rule table `T` and any in-bounds window of exactly
`window_size` states, the step computes the window's index as the
big-endian positional sum `Σ_p w[p] * state_count ^ (window_size - p - 1)`,
that index is a valid position of `T`, and the looked-up next state is
exactly the supplied table entry at that index. -/
theorem C2_window_roundtrip (T : List Int) (l r n : Int) (cfg : CAConfig)
    (hinit : CA.init (.inr T) l r n = .ok cfg)
    (w : List Int) (hwlen : w.length = cfg.in_size)
    (hwv : ∀ x ∈ w, 0 ≤ x ∧ x < (cfg.n_states : Int)) :
    _neighborhood_to_index cfg.n_states w
      = ((List.range w.length).map fun p =>
          w.getD p 0 * ((cfg.n_states : Int) ^ (w.length - p - 1))).sum ∧
    (_neighborhood_to_index cfg.n_states w).toNat < T.length ∧
    _apply_rule cfg w false
      = .ok [T.getD (_neighborhood_to_index cfg.n_states w).toNat 0] := by
  have hrule : cfg.rule = T := CA_init_inr_rule_eq hinit
  obtain ⟨hn2, _, _, _, hL, _⟩ := CA_init_ok_inv hinit
  have hTlen : T.length = cfg.n_states ^ cfg.in_size := by rw [← hrule]; exact hL
  obtain ⟨hge, hlt⟩ := nti_bounds (by omega) w hwv
  have hcast : (((cfg.n_states ^ cfg.in_size : Nat)) : Int)
      = ((cfg.n_states : Int)) ^ cfg.in_size := by push_cast; rfl
  refine ⟨nti_eq_range_sum cfg.n_states w, ?_, ?_⟩
  · rw [hwlen] at hlt
    omega
  · rw [← hrule]
    exact apply_rule_single_window cfg w hwlen hwv

/-- Witness for C2: rule-90 table, window `[1,0,1]` (index 5, entry 0). -/
theorem C2_window_roundtrip_witness :
    (CA.init (.inr [0, 1, 0, 1, 1, 0, 1, 0]) 1 1 2
        = .ok ⟨1, 1, 2, [0, 1, 0, 1, 1, 0, 1, 0]⟩ ∧
      ([1, 0, 1] : List Int).length = CAConfig.in_size ⟨1, 1, 2, [0, 1, 0, 1, 1, 0, 1, 0]⟩ ∧
      (∀ x ∈ ([1, 0, 1] : List Int), 0 ≤ x ∧ x < ((2 : Nat) : Int))) ∧
    (_neighborhood_to_index 2 [1, 0, 1]
      = ((List.range ([1, 0, 1] : List Int).length).map fun p =>
          ([1, 0, 1] : List Int).getD p 0 * (((2 : Nat) : Int) ^ (([1, 0, 1] : List Int).length - p - 1))).sum ∧
    (_neighborhood_to_index 2 [1, 0, 1]).toNat < ([0, 1, 0, 1, 1, 0, 1, 0] : List Int).length ∧
    _apply_rule ⟨1, 1, 2, [0, 1, 0, 1, 1, 0, 1, 0]⟩ [1, 0, 1] false
      = .ok [([0, 1, 0, 1, 1, 0, 1, 0] : List Int).getD
          (_neighborhood_to_index 2 [1, 0, 1]).toNat 0]) :=
  ⟨⟨by rfl, by rfl, by decide⟩,
    C2_window_roundtrip [0, 1, 0, 1, 1, 0, 1, 0] 1 1 2
      ⟨1, 1, 2, [0, 1, 0, 1, 1, 0, 1, 0]⟩ (by rfl) [1, 0, 1] (by rfl) (by decide)⟩

theorem init_le_foldl_max (l : List Nat) : ∀ init, init ≤ l.foldl max init := by
  induction l with
  | nil => intro init; exact le_refl init
  | cons y ys ih =>
    intro init
    rw [List.foldl_cons]
    exact le_trans (le_max_left init y) (ih (max init y))

theorem le_foldl_max (l : List Nat) : ∀ (init x : Nat), x ∈ l → x ≤ l.foldl max init := by
  induction l with
  | nil =>
    intro _ x hx
    cases hx
  | cons y ys ih =>
    intro init x hx
    rw [List.foldl_cons]
    rcases List.mem_cons.mp hx with rfl | hx'
    · exact le_trans (le_max_right init x) (init_le_foldl_max ys (max init x))
    · exact ih (max init y) x hx'

theorem foldl_max_le (l : List Nat) : ∀ (init M : Nat), init ≤ M → (∀ x ∈ l, x ≤ M) →
    l.foldl max init ≤ M := by
  induction l with
  | nil =>
    intro _ _ h _
    exact h
  | cons y ys ih =>
    intro init M hinit hall
    rw [List.foldl_cons]
    exact ih (max init y) M (max_le hinit (hall y (List.mem_cons_self y ys)))
      fun x hx => hall x (List.mem_cons_of_mem y hx)

theorem le_seq_max_of_mem {l : List Nat} {x : Nat} (h : x ∈ l) : x ≤ seq_max l :=
  le_foldl_max l 0 x h

theorem seq_max_le {l : List Nat} {M : Nat} (h : ∀ x ∈ l, x ≤ M) : seq_max l ≤ M :=
  foldl_max_le l 0 M (Nat.zero_le M) h

theorem foldl_min_le_init (l : List Nat) : ∀ init, l.foldl min init ≤ init := by
  induction l with
  | nil => intro init; exact le_refl init
  | cons y ys ih =>
    intro init
    rw [List.foldl_cons]
    exact le_trans (ih (min init y)) (min_le_left init y)

theorem foldl_min_le (l : List Nat) : ∀ (init x : Nat), x ∈ l → l.foldl min init ≤ x := by
  induction l with
  | nil =>
    intro _ x hx
    cases hx
  | cons y ys ih =>
    intro init x hx
    rw [List.foldl_cons]
    rcases List.mem_cons.mp hx with rfl | hx'
    · exact le_trans (foldl_min_le_init ys (min init x)) (min_le_right init x)
    · exact ih (min init y) x hx'

theorem seq_min_le_of_mem {l : List Nat} {x : Nat} (h : x ∈ l) : seq_min l ≤ x := by
  match l, h with
  | y :: ys, h =>
    rcases List.mem_cons.mp h with rfl | hx'
    · exact foldl_min_le_init ys x
    · exact foldl_min_le ys y x hx'

/-- C3 (uniform padding): with `window_size > 1` and a history of valid
sequences, padding is a no-op when `max_len = min_len`; otherwise each
sequence with `fill = max_len - len > 0` is padded by prepending
`reps * left_radius + extra_both + extra_left` zeros and appending
`reps * right_radius + extra_both` zeros, where
`(reps, extra) = divmod(fill, window_size - 1)` and
`(extra_both, extra_left) = divmod(extra, 2)`; every resulting sequence
has length exactly `max_len` (remainder biased left). -/
theorem C3_uniform_padding (cfg : CAConfig) (seqs : List (List Int))
    (hv : ∀ s ∈ seqs, ∀ x ∈ s, 0 ≤ x ∧ x < (cfg.n_states : Int))
    (hws : 1 < cfg.in_size) :
    (seq_max (seqs.map List.length) = seq_min (seqs.map List.length) →
      _pad_output cfg seqs = .ok seqs) ∧
    (seq_min (seqs.map List.length) < seq_max (seqs.map List.length) →
      _pad_output cfg seqs = .ok (seqs.map fun s =>
        if 0 < seq_max (seqs.map List.length) - s.length then
          List.replicate
            ((seq_max (seqs.map List.length) - s.length) / (cfg.in_size - 1) * cfg.nhd0
              + (seq_max (seqs.map List.length) - s.length) % (cfg.in_size - 1) / 2
              + (seq_max (seqs.map List.length) - s.length) % (cfg.in_size - 1) % 2)
            (0 : Int)
          ++ s ++
          List.replicate
            ((seq_max (seqs.map List.length) - s.length) / (cfg.in_size - 1) * cfg.nhd1
              + (seq_max (seqs.map List.length) - s.length) % (cfg.in_size - 1) / 2)
            (0 : Int)
        else s)) ∧
    (∃ out, _pad_output cfg seqs = .ok out ∧ out.length = seqs.length ∧
      ∀ s ∈ out, s.length = seq_max (seqs.map List.length)) := by
  have hd : cfg.in_size - 1 = cfg.nhd0 + cfg.nhd1 := by
    simp [CAConfig.in_size]
  have hrowlen : ∀ t : List Int, t.length ≤ seq_max (seqs.map List.length) →
      (if 0 < seq_max (seqs.map List.length) - t.length then
        List.replicate
          ((seq_max (seqs.map List.length) - t.length) / (cfg.in_size - 1) * cfg.nhd0
            + (seq_max (seqs.map List.length) - t.length) % (cfg.in_size - 1) / 2
            + (seq_max (seqs.map List.length) - t.length) % (cfg.in_size - 1) % 2)
          (0 : Int)
        ++ t ++
        List.replicate
          ((seq_max (seqs.map List.length) - t.length) / (cfg.in_size - 1) * cfg.nhd1
            + (seq_max (seqs.map List.length) - t.length) % (cfg.in_size - 1) / 2)
          (0 : Int)
      else t).length = seq_max (seqs.map List.length) := by
    intro t hle
    by_cases hfill : 0 < seq_max (seqs.map List.length) - t.length
    · rw [if_pos hfill]
      have h5 : (seq_max (seqs.map List.length) - t.length) / (cfg.in_size - 1)
            * (cfg.in_size - 1)
          + (seq_max (seqs.map List.length) - t.length) % (cfg.in_size - 1)
          = seq_max (seqs.map List.length) - t.length :=
        Nat.div_add_mod' _ _
      have h6 : (seq_max (seqs.map List.length) - t.length) % (cfg.in_size - 1) / 2 * 2
          + (seq_max (seqs.map List.length) - t.length) % (cfg.in_size - 1) % 2
          = (seq_max (seqs.map List.length) - t.length) % (cfg.in_size - 1) :=
        Nat.div_add_mod' _ 2
      have h7 : (seq_max (seqs.map List.length) - t.length) / (cfg.in_size - 1) * cfg.nhd0
          + (seq_max (seqs.map List.length) - t.length) / (cfg.in_size - 1) * cfg.nhd1
          = (seq_max (seqs.map List.length) - t.length) / (cfg.in_size - 1)
            * (cfg.in_size - 1) := by
        rw [← Nat.mul_add, ← hd]
      simp only [List.length_append, List.length_replicate]
      omega
    · rw [if_neg hfill]
      omega
  unfold _pad_output
  have hcheck : ¬ ¬ (seqs.all fun s => states_in_bounds cfg.n_states s) = true := by
    rw [not_not, List.all_eq_true]
    intro s hs
    exact (states_in_bounds_iff _ _).mpr (hv s hs)
  rw [if_neg hcheck, if_pos hws]
  refine ⟨fun heq => ?_, fun hlt => ?_, ?_⟩
  · rw [if_neg (by omega)]
  · rw [if_pos hlt]
  · by_cases hc : seq_min (seqs.map List.length) < seq_max (seqs.map List.length)
    · rw [if_pos hc]
      refine ⟨_, rfl, by simp, ?_⟩
      intro s hs
      rcases List.mem_map.mp hs with ⟨t, ht, rfl⟩
      have hle : t.length ≤ seq_max (seqs.map List.length) :=
        le_seq_max_of_mem (List.mem_map_of_mem List.length ht)
      exact hrowlen t hle
    · rw [if_neg hc]
      refine ⟨seqs, rfl, rfl, ?_⟩
      intro s hs
      have h1 : s.length ≤ seq_max (seqs.map List.length) :=
        le_seq_max_of_mem (List.mem_map_of_mem List.length hs)
      have h2 : seq_min (seqs.map List.length) ≤ s.length :=
        seq_min_le_of_mem (List.mem_map_of_mem List.length hs)
      omega

/-- Witness for C3: history `[[1,0,1],[0]]` with the rule-90
configuration; the short row gains one zero on each side. -/
theorem C3_uniform_padding_witness :
    ((∀ s ∈ ([[1, 0, 1], [0]] : List (List Int)), ∀ x ∈ s,
        0 ≤ x ∧ x < ((2 : Nat) : Int)) ∧
      1 < CAConfig.in_size ⟨1, 1, 2, [0, 1, 0, 1, 1, 0, 1, 0]⟩) ∧
    (∃ out, _pad_output ⟨1, 1, 2, [0, 1, 0, 1, 1, 0, 1, 0]⟩ [[1, 0, 1], [0]]
        = .ok out ∧
      out.length = ([[1, 0, 1], [0]] : List (List Int)).length ∧
      ∀ s ∈ out, s.length
        = seq_max (([[1, 0, 1], [0]] : List (List Int)).map List.length)) :=
  ⟨⟨by decide, by decide⟩,
    (C3_uniform_padding ⟨1, 1, 2, [0, 1, 0, 1, 1, 0, 1, 0]⟩ [[1, 0, 1], [0]]
      (by decide) (by decide)).2.2⟩

theorem le_foldl_min (l : List Nat) : ∀ (init M : Nat), M ≤ init → (∀ x ∈ l, M ≤ x) →
    M ≤ l.foldl min init := by
  induction l with
  | nil =>
    intro _ _ h _
    exact h
  | cons y ys ih =>
    intro init M hinit hall
    rw [List.foldl_cons]
    exact ih (min init y) M (le_min hinit (hall y (List.mem_cons_self y ys)))
      fun x hx => hall x (List.mem_cons_of_mem y hx)

theorem le_seq_min {l : List Nat} {M : Nat} (h : ∀ x ∈ l, M ≤ x) (hne : l ≠ []) :
    M ≤ seq_min l := by
  match l, hne with
  | y :: ys, _ =>
    exact le_foldl_min ys y M (h y (List.mem_cons_self y ys))
      fun x hx => h x (List.mem_cons_of_mem y hx)

theorem getD_last_eq {α : Type} : ∀ (l : List α) (d : α), l ≠ [] →
    l.getD (l.length - 1) d = l.getLastD d := by
  intro l
  induction l with
  | nil =>
    intro d h
    exact absurd rfl h
  | cons x xs ih =>
    intro d _
    cases xs with
    | nil => rfl
    | cons y ys =>
      have h2 := ih d (by simp)
      show (x :: y :: ys).getD (ys.length + 1) d = (x :: y :: ys).getLastD d
      rw [List.getD_cons_succ]
      simp only [List.length_cons, Nat.add_sub_cancel] at h2
      rw [h2]
      rfl

theorem getLastD_mem {α : Type} : ∀ (l : List α) (d : α), l ≠ [] → l.getLastD d ∈ l := by
  intro l
  induction l with
  | nil =>
    intro d h
    exact absurd rfl h
  | cons x xs ih =>
    intro d _
    cases xs with
    | nil => simp
    | cons y ys =>
      show (y :: ys).getLastD x ∈ x :: y :: ys
      exact List.mem_cons_of_mem x (ih x (by simp))

theorem getD_mem_or_default (l : List Int) (i : Nat) :
    l.getD i 0 ∈ l ∨ l.getD i 0 = 0 := by
  rcases Nat.lt_or_ge i l.length with h | h
  · rw [List.getD_eq_getElem _ _ h]
    exact Or.inl (List.getElem_mem h)
  · exact Or.inr (List.getD_eq_default _ _ h)

theorem in_size_pos (cfg : CAConfig) : 1 ≤ cfg.in_size := by
  show 1 ≤ cfg.nhd0 + cfg.nhd1 + 1
  omega

/-- Forward success lemma for `_apply_rule`: a valid (and, without
pre-padding, long enough) sequence yields a step of the predicted
length. -/
theorem apply_rule_ok_of_valid (cfg : CAConfig) (seq : List Int) (p : Bool)
    (hv : ∀ x ∈ seq, 0 ≤ x ∧ x < (cfg.n_states : Int))
    (hlen : p = false → cfg.in_size ≤ seq.length) :
    ∃ o, _apply_rule cfg seq p = .ok o ∧
      o.length = (if p = true then seq.length else seq.length + 1 - cfg.in_size) := by
  unfold _apply_rule
  have hc1 : ¬ (p = false ∧ seq.length < cfg.in_size) := by
    rintro ⟨hp, hl⟩
    exact absurd (hlen hp) (by omega)
  rw [if_neg hc1]
  rw [if_neg (by simpa using (states_in_bounds_iff _ _).mpr hv)]
  cases p
  · simp only [Bool.false_eq_true, if_false]
    exact ⟨_, rfl, by simp⟩
  · simp only [if_true]
    refine ⟨_, rfl, ?_⟩
    have hsz : cfg.in_size = cfg.nhd0 + cfg.nhd1 + 1 := rfl
    simp only [List.length_map, List.length_range, List.length_append,
      List.length_replicate]
    omega

/-- Inversion of a successful `_apply_rule`: input validity, the length
precondition, the output-length formula, and (for valid configurations)
output validity. -/
theorem apply_rule_ok_full {cfg : CAConfig} {s : List Int} {p : Bool} {o : List Int}
    (h : _apply_rule cfg s p = .ok o) :
    (∀ x ∈ s, 0 ≤ x ∧ x < (cfg.n_states : Int)) ∧
    (p = false → cfg.in_size ≤ s.length) ∧
    o.length = (if p = true then s.length else s.length + 1 - cfg.in_size) ∧
    (2 ≤ cfg.n_states → (∀ x ∈ cfg.rule, 0 ≤ x ∧ x < (cfg.n_states : Int)) →
      ∀ x ∈ o, 0 ≤ x ∧ x < (cfg.n_states : Int)) := by
  unfold _apply_rule at h
  by_cases hc1 : p = false ∧ s.length < cfg.in_size
  · rw [if_pos hc1] at h
    exact absurd h (by simp)
  rw [if_neg hc1] at h
  by_cases hc2 : ¬ states_in_bounds cfg.n_states s
  · rw [if_pos hc2] at h
    exact absurd h (by simp)
  rw [if_neg hc2] at h
  push_neg at hc2
  have hv := (states_in_bounds_iff _ _).mp hc2
  have ho : o = (List.range
      ((if p = true then
        List.replicate cfg.nhd0 (0 : Int) ++ s ++ List.replicate cfg.nhd1 (0 : Int)
      else s).length + 1 - cfg.in_size)).map fun start_ix =>
        cfg.rule.getD (_neighborhood_to_index cfg.n_states
          (((if p = true then
            List.replicate cfg.nhd0 (0 : Int) ++ s ++ List.replicate cfg.nhd1 (0 : Int)
          else s).drop start_ix).take cfg.in_size)).toNat 0 := by
    cases h
    rfl
  refine ⟨hv, fun hp => ?_, ?_, fun hn hrule x hx => ?_⟩
  · rcases Nat.lt_or_ge s.length cfg.in_size with hlt | hge
    · exact absurd ⟨hp, hlt⟩ hc1
    · exact hge
  · have hsz : cfg.in_size = cfg.nhd0 + cfg.nhd1 + 1 := rfl
    cases p
    · simp only [Bool.false_eq_true, if_false] at ho ⊢
      rw [ho]
      simp
    · simp only [if_true] at ho ⊢
      rw [ho]
      simp only [List.length_map, List.length_range, List.length_append,
        List.length_replicate]
      omega
  · rw [ho] at hx
    rcases List.mem_map.mp hx with ⟨ix, _, rfl⟩
    rcases getD_mem_or_default cfg.rule
        (_neighborhood_to_index cfg.n_states _).toNat with hm | hz
    · exact hrule _ hm
    · rw [hz]
      constructor
      · exact le_refl 0
      · exact_mod_cast (by omega : (0 : Nat) < cfg.n_states)

/-- Appending a freshly computed step to a history preserves the
"each row is one rule application of the previous" chain. -/
theorem chain_snoc {cfg : CAConfig} {p : Bool} {out : List (List Int)} {nxt : List Int}
    (hchain : ∀ i, i + 1 < out.length →
      _apply_rule cfg (out.getD i []) p = .ok (out.getD (i + 1) []))
    (happ : _apply_rule cfg (out.getLastD []) p = .ok nxt) :
    ∀ i, i + 1 < (out ++ [nxt]).length →
      _apply_rule cfg ((out ++ [nxt]).getD i []) p
        = .ok ((out ++ [nxt]).getD (i + 1) []) := by
  intro i hi
  rw [List.length_append, List.length_singleton] at hi
  rcases Nat.lt_or_ge (i + 1) out.length with h | h
  · rw [List.getD_append _ _ _ _ (by omega), List.getD_append _ _ _ _ h]
    exact hchain i h
  · have hie : i + 1 = out.length := by omega
    have hne : out ≠ [] := by
      intro he
      rw [he] at hie
      simp at hie
    rw [List.getD_append _ _ _ _ (by omega)]
    rw [List.getD_append_right _ _ _ _ (by omega)]
    have h0 : i + 1 - out.length = 0 := by omega
    rw [h0]
    show _apply_rule cfg (out.getD i []) p = .ok nxt
    have hgl : out.getD (out.length - 1) [] = out.getLastD [] := getD_last_eq out [] hne
    have hieq : out.getD i [] = out.getLastD [] := by
      rw [← hgl]
      congr 1
      omega
    rw [hieq]
    exact happ

theorem call_loop_succ_ok {cfg : CAConfig} {p : Bool} {out : List (List Int)}
    {nxt : List Int} (fuel : Nat)
    (happ : _apply_rule cfg (out.getLastD []) p = .ok nxt) :
    call_loop cfg p (fuel + 1) out
      = if 0 < nxt.length then call_loop cfg p fuel (out ++ [nxt]) else .ok out := by
  simp only [call_loop, happ]

theorem call_loop_succ_error {cfg : CAConfig} {p : Bool} {out : List (List Int)}
    {e : Err} (fuel : Nat)
    (happ : _apply_rule cfg (out.getLastD []) p = .error e) :
    call_loop cfg p (fuel + 1) out = .error e := by
  simp only [call_loop, happ]

/-- Under `pre_pad = false`, once the current sequence would drop below
the window size within the remaining steps, the evolution loop raises
`SequenceTooShort`. -/
theorem call_loop_too_short (cfg : CAConfig) (hn : 2 ≤ cfg.n_states)
    (hrule : ∀ x ∈ cfg.rule, 0 ≤ x ∧ x < (cfg.n_states : Int)) :
    ∀ (fuel : Nat), 1 ≤ fuel → ∀ (out : List (List Int)),
      (∀ x ∈ out.getLastD [], 0 ≤ x ∧ x < (cfg.n_states : Int)) →
      (out.getLastD []).length < cfg.in_size + (fuel - 1) * (cfg.in_size - 1) →
      call_loop cfg false fuel out = .error .sequenceTooShort := by
  intro fuel
  induction fuel with
  | zero =>
    intro h
    exact absurd h (by omega)
  | succ m ih =>
    intro _ out hv hshort
    by_cases hcur : (out.getLastD []).length < cfg.in_size
    · have happ : _apply_rule cfg (out.getLastD []) false = .error .sequenceTooShort := by
        unfold _apply_rule
        rw [if_pos ⟨rfl, hcur⟩]
      exact call_loop_succ_error m happ
    · push_neg at hcur
      have hm : 1 ≤ m := by
        rcases Nat.eq_zero_or_pos m with rfl | h
        · omega
        · exact h
      obtain ⟨nxt, happ, hlen⟩ :=
        apply_rule_ok_of_valid cfg (out.getLastD []) false hv (fun _ => hcur)
      simp only [Bool.false_eq_true, if_false] at hlen
      have hin1 := in_size_pos cfg
      rw [call_loop_succ_ok m happ, if_pos (by omega)]
      have hprod : m * (cfg.in_size - 1)
          = (m - 1) * (cfg.in_size - 1) + (cfg.in_size - 1) := by
        rcases m with _ | m'
        · exact absurd hm (by omega)
        · simp [Nat.succ_mul]
      apply ih hm (out ++ [nxt])
      · rw [List.getLastD_concat]
        exact (apply_rule_ok_full happ).2.2.2 hn hrule
      · rw [List.getLastD_concat]
        simp only [Nat.add_sub_cancel] at hshort
        omega

/-- With pre-padding on, the evolution loop always succeeds on a history
of valid constant-width rows, and preserves validity and width. -/
theorem call_loop_const_width (cfg : CAConfig) (hn : 2 ≤ cfg.n_states)
    (hrule : ∀ x ∈ cfg.rule, 0 ≤ x ∧ x < (cfg.n_states : Int)) (L : Nat) :
    ∀ (fuel : Nat) (out : List (List Int)), out ≠ [] →
      (∀ s ∈ out, (∀ x ∈ s, 0 ≤ x ∧ x < (cfg.n_states : Int)) ∧ s.length = L) →
      ∃ h, call_loop cfg true fuel out = .ok h ∧ h ≠ [] ∧
        ∀ s ∈ h, (∀ x ∈ s, 0 ≤ x ∧ x < (cfg.n_states : Int)) ∧ s.length = L := by
  intro fuel
  induction fuel with
  | zero =>
    intro out hne hprops
    exact ⟨out, rfl, hne, hprops⟩
  | succ m ih =>
    intro out hne hprops
    have hlast := hprops (out.getLastD []) (getLastD_mem out [] hne)
    obtain ⟨nxt, happ, hlen⟩ :=
      apply_rule_ok_of_valid cfg (out.getLastD []) true hlast.1 (by simp)
    simp only [if_true, hlast.2] at hlen
    rw [call_loop_succ_ok m happ]
    by_cases hL : 0 < nxt.length
    · rw [if_pos hL]
      apply ih (out ++ [nxt]) (by simp)
      intro s hs
      rcases List.mem_append.mp hs with h | h
      · exact hprops s h
      · have hs' : s = nxt := List.mem_singleton.mp h
        subst hs'
        exact ⟨(apply_rule_ok_full happ).2.2.2 hn hrule, hlen⟩
    · rw [if_neg hL]
      exact ⟨out, rfl, hne, hprops⟩

/-- On a history whose rows are all valid and of one common length,
`_pad_output` is the identity. -/
theorem pad_output_noop_of_const (cfg : CAConfig) {h : List (List Int)} (L : Nat)
    (hprops : ∀ s ∈ h, (∀ x ∈ s, 0 ≤ x ∧ x < (cfg.n_states : Int)) ∧ s.length = L) :
    _pad_output cfg h = .ok h := by
  unfold _pad_output
  rw [if_neg (by
    rw [not_not, List.all_eq_true]
    intro s hs
    exact (states_in_bounds_iff _ _).mpr (hprops s hs).1)]
  by_cases hws : 1 < cfg.in_size
  · rw [if_pos hws]
    by_cases hne : h = []
    · subst hne
      rw [if_neg (by simp [seq_max, seq_min])]
    · have hmax : seq_max (h.map List.length) ≤ L := by
        apply seq_max_le
        intro x hx
        rcases List.mem_map.mp hx with ⟨s, hs, rfl⟩
        exact le_of_eq (hprops s hs).2
      have hmin : L ≤ seq_min (h.map List.length) := by
        apply le_seq_min
        · intro x hx
          rcases List.mem_map.mp hx with ⟨s, hs, rfl⟩
          exact le_of_eq (hprops s hs).2.symm
        · simpa using hne
      rw [if_neg (by omega)]
  · rw [if_neg hws]

/-- C4 (hard-failure termination): with `pad_input = false` and
`steps ≥ 1`, whenever repeatedly applying a step would reach a current
sequence of length below `window_size` within the requested steps — i.e.
`len(seq) < window_size + (steps - 1) * (window_size - 1)` — the whole
evolution call fails with `SequenceTooShort`; it never silently returns a
truncated history in that situation. -/
theorem C4_hard_failure (cfg : CAConfig) (hn : 2 ≤ cfg.n_states)
    (hrule : ∀ x ∈ cfg.rule, 0 ≤ x ∧ x < (cfg.n_states : Int))
    (seq : List Int) (hv : ∀ x ∈ seq, 0 ≤ x ∧ x < (cfg.n_states : Int))
    (steps : Int) (hs : 1 ≤ steps) (post_pad : Bool)
    (hshort : seq.length < cfg.in_size + (steps.toNat - 1) * (cfg.in_size - 1)) :
    CA.call cfg seq steps false post_pad = .error .sequenceTooShort := by
  unfold CA.call
  rw [if_neg (by omega)]
  have hloop := call_loop_too_short cfg hn hrule steps.toNat (by omega) [seq]
    (by simpa using hv) (by simpa using hshort)
  rw [hloop]

/-- Witness for C4: rule-90 configuration, input `[1, 0]` of length 2
below `window_size = 3`, one step. -/
theorem C4_hard_failure_witness :
    (2 ≤ 2 ∧
      (∀ x ∈ ([0, 1, 0, 1, 1, 0, 1, 0] : List Int), 0 ≤ x ∧ x < ((2 : Nat) : Int)) ∧
      (∀ x ∈ ([1, 0] : List Int), 0 ≤ x ∧ x < ((2 : Nat) : Int)) ∧
      (1 : Int) ≤ 1 ∧
      ([1, 0] : List Int).length
        < CAConfig.in_size ⟨1, 1, 2, [0, 1, 0, 1, 1, 0, 1, 0]⟩
          + ((1 : Int).toNat - 1)
            * (CAConfig.in_size ⟨1, 1, 2, [0, 1, 0, 1, 1, 0, 1, 0]⟩ - 1)) ∧
    CA.call ⟨1, 1, 2, [0, 1, 0, 1, 1, 0, 1, 0]⟩ [1, 0] 1 false true
      = .error .sequenceTooShort :=
  ⟨⟨by decide, by decide, by decide, by decide, by decide⟩,
    C4_hard_failure ⟨1, 1, 2, [0, 1, 0, 1, 1, 0, 1, 0]⟩ (by decide) (by decide)
      [1, 0] (by decide) 1 (by decide) true (by decide)⟩

/-- C5 (step output length): on a valid input, a pre-padded step returns
a sequence of exactly the input's length (and hence, with valid
configuration, every element of a pre-padded evolution history has the
initial sequence's length); an unpadded step on a long-enough input
returns exactly `len - window_size + 1` values, strictly fewer than the
input whenever `window_size > 1`. -/
theorem C5_step_output_length (cfg : CAConfig) (seq : List Int)
    (hv : ∀ x ∈ seq, 0 ≤ x ∧ x < (cfg.n_states : Int)) :
    (∃ out, _apply_rule cfg seq true = .ok out ∧ out.length = seq.length) ∧
    (cfg.in_size ≤ seq.length →
      ∃ out, _apply_rule cfg seq false = .ok out ∧
        out.length = seq.length + 1 - cfg.in_size ∧
        (1 < cfg.in_size → out.length < seq.length)) ∧
    (2 ≤ cfg.n_states → (∀ x ∈ cfg.rule, 0 ≤ x ∧ x < (cfg.n_states : Int)) →
      ∀ (steps : Int), 1 ≤ steps → ∀ (post_pad : Bool),
        ∃ h, CA.call cfg seq steps true post_pad = .ok h ∧
          ∀ s ∈ h, s.length = seq.length) := by
  refine ⟨?_, ?_, ?_⟩
  · obtain ⟨o, ho, hlen⟩ := apply_rule_ok_of_valid cfg seq true hv (by simp)
    rw [if_pos rfl] at hlen
    exact ⟨o, ho, hlen⟩
  · intro hge
    obtain ⟨o, ho, hlen⟩ := apply_rule_ok_of_valid cfg seq false hv (fun _ => hge)
    simp only [Bool.false_eq_true, if_false] at hlen
    exact ⟨o, ho, hlen, fun hws => by omega⟩
  · intro hn hrule steps hsteps post_pad
    unfold CA.call
    rw [if_neg (by omega)]
    obtain ⟨h, hloop, hne, hprops⟩ :=
      call_loop_const_width cfg hn hrule seq.length steps.toNat [seq] (by simp)
        (by
          intro s hs
          have : s = seq := List.mem_singleton.mp hs
          subst this
          exact ⟨hv, rfl⟩)
    rw [hloop]
    cases post_pad
    · exact ⟨h, rfl, fun s hs => (hprops s hs).2⟩
    · simp only [if_true]
      rw [pad_output_noop_of_const cfg seq.length hprops]
      exact ⟨h, rfl, fun s hs => (hprops s hs).2⟩

/-- Witness for C5: rule-90 configuration, input `[0, 1, 0]`. -/
theorem C5_step_output_length_witness :
    (∀ x ∈ ([0, 1, 0] : List Int), 0 ≤ x ∧ x < ((2 : Nat) : Int)) ∧
    ((∃ out, _apply_rule ⟨1, 1, 2, [0, 1, 0, 1, 1, 0, 1, 0]⟩ [0, 1, 0] true = .ok out ∧
        out.length = ([0, 1, 0] : List Int).length) ∧
    (CAConfig.in_size ⟨1, 1, 2, [0, 1, 0, 1, 1, 0, 1, 0]⟩ ≤ ([0, 1, 0] : List Int).length →
      ∃ out, _apply_rule ⟨1, 1, 2, [0, 1, 0, 1, 1, 0, 1, 0]⟩ [0, 1, 0] false = .ok out ∧
        out.length = ([0, 1, 0] : List Int).length + 1
          - CAConfig.in_size ⟨1, 1, 2, [0, 1, 0, 1, 1, 0, 1, 0]⟩ ∧
        (1 < CAConfig.in_size ⟨1, 1, 2, [0, 1, 0, 1, 1, 0, 1, 0]⟩ →
          out.length < ([0, 1, 0] : List Int).length)) ∧
    (2 ≤ 2 → (∀ x ∈ ([0, 1, 0, 1, 1, 0, 1, 0] : List Int), 0 ≤ x ∧ x < ((2 : Nat) : Int)) →
      ∀ (steps : Int), 1 ≤ steps → ∀ (post_pad : Bool),
        ∃ h, CA.call ⟨1, 1, 2, [0, 1, 0, 1, 1, 0, 1, 0]⟩ [0, 1, 0] steps true post_pad
            = .ok h ∧
          ∀ s ∈ h, s.length = ([0, 1, 0] : List Int).length)) :=
  ⟨by decide,
    C5_step_output_length ⟨1, 1, 2, [0, 1, 0, 1, 1, 0, 1, 0]⟩ [0, 1, 0] (by decide)⟩

/-- Structural properties of a successful evolution loop: the result
extends the accumulator, grows by at most `fuel` rows and (when fuel and a
nonempty last row are available) by at least one row, and preserves the
step chain. -/
theorem call_loop_ok_props (cfg : CAConfig) (p : Bool) :
    ∀ (fuel : Nat) (out h : List (List Int)),
      call_loop cfg p fuel out = .ok h →
      (∃ t, h = out ++ t) ∧
      h.length ≤ out.length + fuel ∧
      ((∀ i, i + 1 < out.length →
          _apply_rule cfg (out.getD i []) p = .ok (out.getD (i + 1) [])) →
        ∀ i, i + 1 < h.length →
          _apply_rule cfg (h.getD i []) p = .ok (h.getD (i + 1) [])) ∧
      (1 ≤ fuel → out.getLastD [] ≠ [] → out.length < h.length) := by
  intro fuel
  induction fuel with
  | zero =>
    intro out h hok
    have hh : out = h := by simpa [call_loop] using hok
    subst hh
    exact ⟨⟨[], by simp⟩, by omega, fun hc => hc, fun h1 _ => absurd h1 (by omega)⟩
  | succ m ih =>
    intro out h hok
    rcases happ : _apply_rule cfg (out.getLastD []) p with e | nxt
    · rw [call_loop_succ_error m happ] at hok
      exact absurd hok (by simp)
    · rw [call_loop_succ_ok m happ] at hok
      by_cases hL : 0 < nxt.length
      · rw [if_pos hL] at hok
        obtain ⟨⟨t, ht⟩, hlen, hchain, _⟩ := ih (out ++ [nxt]) h hok
        refine ⟨⟨[nxt] ++ t, by rw [ht, List.append_assoc]⟩, ?_, ?_, ?_⟩
        · simp only [List.length_append, List.length_singleton] at hlen
          omega
        · intro hco
          exact hchain (chain_snoc hco happ)
        · intro _ _
          rw [ht]
          simp only [List.length_append, List.length_singleton]
          omega
      · rw [if_neg hL] at hok
        have hh : out = h := by simpa using hok
        subst hh
        refine ⟨⟨[], by simp⟩, by omega, fun hc => hc, ?_⟩
        intro _ hlast
        exfalso
        obtain ⟨_, hlenpre, hlenf, _⟩ := apply_rule_ok_full happ
        have hin1 := in_size_pos cfg
        have hlast_pos : 0 < (out.getLastD []).length := List.length_pos.mpr hlast
        cases p
        · simp only [Bool.false_eq_true, if_false] at hlenf
          have := hlenpre rfl
          omega
        · simp only [if_true] at hlenf
          omega

/-- When the head of a history is one of its longest rows, a successful
`_pad_output` keeps the head unchanged (and the history's length). -/
theorem pad_output_ok_head (cfg : CAConfig) {rest h : List (List Int)} {seq : List Int}
    (hok : _pad_output cfg (seq :: rest) = .ok h)
    (hle : ∀ s ∈ seq :: rest, s.length ≤ seq.length) :
    h.head? = some seq ∧ h.length = (seq :: rest).length := by
  have hmaxle : seq_max ((seq :: rest).map List.length) ≤ seq.length := by
    apply seq_max_le
    intro x hx
    rcases List.mem_map.mp hx with ⟨s, hs, rfl⟩
    exact hle s hs
  unfold _pad_output at hok
  by_cases hc : ¬ ((seq :: rest).all fun s => states_in_bounds cfg.n_states s)
  · rw [if_pos hc] at hok
    exact absurd hok (by simp)
  rw [if_neg hc] at hok
  by_cases hws : 1 < cfg.in_size
  · rw [if_pos hws] at hok
    by_cases hlt : seq_min ((seq :: rest).map List.length)
        < seq_max ((seq :: rest).map List.length)
    · rw [if_pos hlt] at hok
      have hh := Except.ok.inj hok
      rw [← hh]
      constructor
      · rw [List.map_cons, List.head?_cons]
        have hfill : seq_max ((seq :: rest).map List.length) - seq.length = 0 := by
          omega
        congr 1
        simp only [hfill, lt_self_iff_false, if_false]
      · simp
    · rw [if_neg hlt] at hok
      have hh := Except.ok.inj hok
      rw [← hh]
      exact ⟨rfl, rfl⟩
  · rw [if_neg hws] at hok
    have hh := Except.ok.inj hok
    rw [← hh]
    exact ⟨rfl, rfl⟩

/-- Counterexample to C6 as stated: on the empty input sequence (a valid
state sequence), an evolution call with `steps = 1` succeeds and returns
a history of length 1, below the claimed lower bound of 2. -/
theorem C6_history_shape_counterexample :
    CA.call ⟨1, 1, 2, [0, 1, 0, 1, 1, 0, 1, 0]⟩ [] 1 true true
      = .ok [([] : List Int)] ∧
    ¬ 2 ≤ ([([] : List Int)] : List (List Int)).length := by
  constructor
  · rfl
  · decide

/-- C6 (amended): for every evolution call that succeeds with `steps ≥ 1`
on a *nonempty* input sequence, the history's first element equals the
(copied) input, its length is between 2 and `steps + 1`, and it is the
uniform zero-padding (the identity when `post_pad` is off) of the
unpadded history, in which each subsequent element is the result of one
rule application to the previous element. -/
theorem C6_history_shape_amended (cfg : CAConfig) (seq : List Int) (steps : Int)
    (pre_pad post_pad : Bool) (h : List (List Int))
    (hok : CA.call cfg seq steps pre_pad post_pad = .ok h)
    (hs : 1 ≤ steps) (hne : seq ≠ []) :
    2 ≤ h.length ∧ h.length ≤ steps.toNat + 1 ∧ h.head? = some seq ∧
    ∃ h0, CA.call cfg seq steps pre_pad false = .ok h0 ∧
      h0.head? = some seq ∧
      (∀ i, i + 1 < h0.length →
        _apply_rule cfg (h0.getD i []) pre_pad = .ok (h0.getD (i + 1) [])) ∧
      h.length = h0.length ∧
      (post_pad = true → _pad_output cfg h0 = .ok h) ∧
      (post_pad = false → h = h0) := by
  unfold CA.call at hok
  rw [if_neg (by omega)] at hok
  rcases hloop : call_loop cfg pre_pad steps.toNat [seq] with e | h0
  · rw [hloop] at hok
    exact absurd hok (by simp)
  rw [hloop] at hok
  have hcall0 : CA.call cfg seq steps pre_pad false = .ok h0 := by
    unfold CA.call
    rw [if_neg (by omega), hloop]
    rfl
  obtain ⟨⟨t, ht⟩, hlen, hchain, hgrow⟩ :=
    call_loop_ok_props cfg pre_pad steps.toNat [seq] h0 hloop
  have ht' : h0 = seq :: t := by simpa using ht
  have hchain0 : ∀ i, i + 1 < h0.length →
      _apply_rule cfg (h0.getD i []) pre_pad = .ok (h0.getD (i + 1) []) :=
    hchain fun i hi => absurd hi (by simp)
  have hhead0 : h0.head? = some seq := by
    rw [ht']
    rfl
  have hgrow0 : 1 < h0.length := by
    have := hgrow (by omega) (by simpa using hne)
    simpa using this
  have hlen0 : h0.length ≤ steps.toNat + 1 := by
    simp only [List.length_singleton] at hlen
    omega
  have hidx : ∀ i, i < h0.length → (h0.getD i []).length ≤ seq.length := by
    intro i
    induction i with
    | zero =>
      intro _
      rw [ht']
      exact le_refl seq.length
    | succ j ihj =>
      intro hj
      have happ := hchain0 j hj
      have hlenf := (apply_rule_ok_full happ).2.2.1
      have hle_j := ihj (by omega)
      have hin1 := in_size_pos cfg
      cases pre_pad
      · simp only [Bool.false_eq_true, if_false] at hlenf
        omega
      · simp only [if_true] at hlenf
        omega
  have hrowle : ∀ s ∈ h0, s.length ≤ seq.length := by
    intro s hs
    rcases List.mem_iff_getElem.mp hs with ⟨i, hi, rfl⟩
    rw [← List.getD_eq_getElem h0 [] hi]
    exact hidx i hi
  cases post_pad
  · simp only [Bool.false_eq_true, if_false] at hok
    have hh : h0 = h := Except.ok.inj hok
    subst hh
    exact ⟨hgrow0, hlen0, hhead0,
      h0, hcall0, hhead0, hchain0, rfl,
      fun hco => absurd hco (by simp), fun _ => rfl⟩
  · simp only [if_true] at hok
    subst ht'
    obtain ⟨hheadh, hlenh⟩ := pad_output_ok_head cfg hok hrowle
    exact ⟨by omega, by omega, hheadh,
      seq :: t, hcall0, hhead0, hchain0, hlenh,
      fun _ => hok, fun hco => absurd hco (by simp)⟩

/-- Witness for the amended C6: rule-90 configuration, input `[0,1,0]`,
one step, both paddings on; the history is `[[0,1,0],[1,0,1]]`. -/
theorem C6_history_shape_amended_witness :
    (CA.call ⟨1, 1, 2, [0, 1, 0, 1, 1, 0, 1, 0]⟩ [0, 1, 0] 1 true true
        = .ok [[0, 1, 0], [1, 0, 1]] ∧
      (1 : Int) ≤ 1 ∧ ([0, 1, 0] : List Int) ≠ []) ∧
    (2 ≤ ([[0, 1, 0], [1, 0, 1]] : List (List Int)).length ∧
      ([[0, 1, 0], [1, 0, 1]] : List (List Int)).length ≤ (1 : Int).toNat + 1 ∧
      ([[0, 1, 0], [1, 0, 1]] : List (List Int)).head? = some [0, 1, 0] ∧
      ∃ h0, CA.call ⟨1, 1, 2, [0, 1, 0, 1, 1, 0, 1, 0]⟩ [0, 1, 0] 1 true false
          = .ok h0 ∧
        h0.head? = some [0, 1, 0] ∧
        (∀ i, i + 1 < h0.length →
          _apply_rule ⟨1, 1, 2, [0, 1, 0, 1, 1, 0, 1, 0]⟩ (h0.getD i []) true
            = .ok (h0.getD (i + 1) [])) ∧
        ([[0, 1, 0], [1, 0, 1]] : List (List Int)).length = h0.length ∧
        (true = true →
          _pad_output ⟨1, 1, 2, [0, 1, 0, 1, 1, 0, 1, 0]⟩ h0
            = .ok [[0, 1, 0], [1, 0, 1]]) ∧
        (true = false → ([[0, 1, 0], [1, 0, 1]] : List (List Int)) = h0)) :=
  ⟨⟨by rfl, by decide, by decide⟩,
    C6_history_shape_amended ⟨1, 1, 2, [0, 1, 0, 1, 1, 0, 1, 0]⟩ [0, 1, 0] 1 true true
      [[0, 1, 0], [1, 0, 1]] (by rfl) (by decide) (by decide)⟩

end CAModel
